/-
Verification of the graph-based image segmentation library (Rust).

This file is a shallow embedding of the library's core: the pixel graph
(`ImageGraph` in src/lib/src/graph/image_graph.rs, with `ImageNode` and
`ImageEdge`), the merge predicate (`NodeMergingThreshold` /
`MagicThreshold`), the edge ordering (`impl Ord for ImageEdge`), the
normalized Euclidean color metric (`EuclideanRGB`), and the segmentation
engine of src/lib/src/segmentation/segmentation.rs (`build_graph`,
`oversegment_graph`, `find_node_component_at`, `merge`, `sort_edges`).

Modelling conventions:
- `f32` values are modelled by exact rationals (`ℚ`).  The algorithms use
  weights only through comparisons, `min`/`max`, addition and division,
  which the rational model performs exactly; rounding of `f32` arithmetic
  is outside the scope of this development.
- The square root inside `EuclideanRGB::distance` is modelled by an exact
  rational square root.  `sqrt(S) * (1.0 / sqrt(255^2 * 3))` is modelled as
  the exact square root of `S / 195075`; on the color pairs appearing in
  this development the argument is a perfect square, where the model agrees
  with the values the source's own doctests assert (for instance
  `distance(black, white) == 1.0`).
- `usize` is modelled by `ℕ`; the saturating/panicking subtraction
  `k - 1` is modelled by truncated `ℕ` subtraction and theorems that
  need the exact decrement carry a positivity hypothesis.
- Interior mutability (`Cell`, `VecCell`) is modelled by explicit state
  passing: operations take the node list and return the updated list.
- Index-out-of-range panics and failed assertions are modelled by
  `Option`, a `none` result standing for a panic; the unbounded `while`
  loop of component resolution is modelled with explicit fuel, `none`
  standing for fuel exhaustion.
-/

import Mathlib

set_option maxRecDepth 4000

/-- A pixel node, from `ImageNode` in src/lib/src/graph/image_node.rs.
Fields in source order: `label` (parent pointer), `n` (component size),
`id` (fixed identity), `max_w` (maximum internal edge weight).
`Inhabited.default` is the all-zero node, matching Rust's
`#[derive(Default)]`. -/
structure ImageNode where
  label : ℕ := 0
  n : ℕ := 0
  id : ℕ := 0
  max_w : ℚ := 0
deriving DecidableEq, Inhabited

/-- An edge between two pixels, from `ImageEdge` in
src/lib/src/graph/image_edge.rs: endpoint indices `n`, `m` and weight `w`. -/
structure ImageEdge where
  n : ℕ := 0
  m : ℕ := 0
  w : ℚ := 0
deriving DecidableEq, Inhabited

/-- The pixel graph, from `ImageGraph` in src/lib/src/graph/image_graph.rs:
component count `k`, the node array and the edge array.  The parallel
color array is irrelevant to the graph operations verified here and is
kept by the segmentation-engine state instead. -/
structure ImageGraph where
  k : ℕ
  nodes : List ImageNode
  edges : List ImageEdge
deriving DecidableEq

/-- Model of `ImageGraph::new_with_nodes(n)`: `k = n`, `n` default nodes
(`Nodes::allocated` fills the vector with `Default::default()`), no edges. -/
def new_with_nodes (n : ℕ) : ImageGraph :=
  { k := n, nodes := List.replicate n default, edges := [] }

/-- The node at index `j` (total read; all theorems that rely on it carry
the range hypotheses the source asserts). -/
def nodeAt (ns : List ImageNode) (j : ℕ) : ImageNode :=
  ns.getD j default

/-- The label (parent pointer) of the node at index `j`. -/
def labelAt (ns : List ImageNode) (j : ℕ) : ℕ :=
  (nodeAt ns j).label

/-- Model of `ImageGraph::merge(s_n, s_m, e)` with the two cells addressed by index,
from src/lib/src/graph/image_graph.rs lines 110-131: `rhs.label = lhs.id`,
`lhs.n += rhs.n`, `lhs.max_w = lhs.max_w.max(rhs.max_w).max(e.w)`,
`k -= 1`. -/
def ImageGraph.merge (g : ImageGraph) (a b : ℕ) (e : ImageEdge) : ImageGraph :=
  let lhs := nodeAt g.nodes a
  let rhs := nodeAt g.nodes b
  let lhs2 := { lhs with n := lhs.n + rhs.n, max_w := max (max lhs.max_w rhs.max_w) e.w }
  let rhs2 := { rhs with label := lhs.id }
  { g with nodes := (g.nodes.set a lhs2).set b rhs2, k := g.k - 1 }

/-- The `while l != id` walk of `Nodes::find_component_at`
(src/lib/src/graph/image_graph.rs lines 290-294): repeatedly borrow the
node at `l` and continue with its label and id, until `l = id`.  `fuel`
bounds the unbounded source loop; `none` models non-termination or an
out-of-range borrow. -/
def loop_find (ns : List ImageNode) : ℕ → ℕ → ℕ → Option ℕ
  | 0, _, _ => none
  | fuel + 1, l, id =>
    if l = id then some l
    else
      match ns[l]? with
      | none => none
      | some token => loop_find ns fuel token.label token.id

/-- Model of `Nodes::find_component_at(index)` from
src/lib/src/graph/image_graph.rs lines 279-305: if the node is its own
root, return the index without mutating; otherwise walk the label chain,
then overwrite only the queried node's label with the discovered root's id
and return the root index. -/
def find_component_at (g : ImageGraph) (fuel index : ℕ) : Option (ℕ × ImageGraph) :=
  match g.nodes[index]? with
  | none => none
  | some node =>
    if node.label = node.id then some (index, g)
    else
      match loop_find g.nodes fuel node.label node.id with
      | none => none
      | some l =>
        match g.nodes[l]? with
        | none => none
        | some s => some (l, { g with nodes := g.nodes.set index { node with label := s.id } })

/-- Model of `NodeMergingThreshold::should_merge` from
src/lib/src/segmentation/node_merging_threshold.rs lines 26-37 (the same
formula as `MagicThreshold::magic`): each component's threshold is
`max_w + c / n`, and the edge weight must be strictly below the smaller
threshold. -/
def should_merge (c : ℚ) (s_n s_m : ImageNode) (e : ImageEdge) : Bool :=
  let threshold_n := s_n.max_w + c / (s_n.n : ℚ)
  let threshold_m := s_m.max_w + c / (s_m.n : ℚ)
  let threshold := min threshold_n threshold_m
  decide (e.w < threshold)

/-- Model of `f32::partial_cmp` on rationals (total, so `unwrap_or(Equal)` never
fires): `Less` if smaller, `Greater` if larger, `Equal` otherwise. -/
def cmpQ (a b : ℚ) : Ordering :=
  if a < b then Ordering.lt else if b < a then Ordering.gt else Ordering.eq

/-- Model of `usize::cmp`. -/
def cmpN (a b : ℕ) : Ordering :=
  if a < b then Ordering.lt else if b < a then Ordering.gt else Ordering.eq

/-- Model of `impl Ord for ImageEdge` (src/lib/src/graph/image_edge.rs lines 33-42):
weight first, then first endpoint index, then second endpoint index. -/
def ImageEdge.cmp (a b : ImageEdge) : Ordering :=
  ((cmpQ a.w b.w).then (cmpN a.n b.n)).then (cmpN a.m b.m)

/-- Model of `PartialOrd::partial_cmp` for `ImageEdge` (lines 45-47):
`Some(self.cmp(other))`. -/
def ImageEdge.cmpOpt (a b : ImageEdge) : Option Ordering :=
  some (a.cmp b)

/-- The hand-written `PartialOrd::lt` for `ImageEdge` (lines 49-51):
`self.w < other.w || self.n < other.n || self.m < other.m`. -/
def ImageEdge.ltOp (a b : ImageEdge) : Bool :=
  decide (a.w < b.w) || decide (a.n < b.n) || decide (a.m < b.m)

/-- The hand-written `PartialOrd::le` for `ImageEdge` (lines 53-55). -/
def ImageEdge.leOp (a b : ImageEdge) : Bool :=
  decide (a.w ≤ b.w) && decide (a.n ≤ b.n) && decide (a.m ≤ b.m)

/-- The hand-written `PartialOrd::gt` for `ImageEdge` (lines 57-59). -/
def ImageEdge.gtOp (a b : ImageEdge) : Bool :=
  decide (a.w > b.w) || decide (a.n > b.n) || decide (a.m > b.m)

/-- The hand-written `PartialOrd::ge` for `ImageEdge` (lines 61-63). -/
def ImageEdge.geOp (a b : ImageEdge) : Bool :=
  decide (a.w ≥ b.w) && decide (a.n ≥ b.n) && decide (a.m ≥ b.m)

/-- The non-strict order induced by `ImageEdge::cmp`: `cmp` does not
return `Greater`. -/
def edgeLE (a b : ImageEdge) : Prop :=
  a.cmp b ≠ Ordering.gt

instance : DecidableRel edgeLE := fun a b =>
  inferInstanceAs (Decidable (a.cmp b ≠ Ordering.gt))

/-- Model of `Edges::sort_by_weight` (src/lib/src/graph/image_graph.rs lines
352-359): sorts the edge vector by `ImageEdge::cmp`.  The comparator is a
total, antisymmetric order on edge values, so the sorted permutation is
unique and insertion sort models `sort_unstable_by` exactly. -/
def sort_by_weight (l : List ImageEdge) : List ImageEdge :=
  List.insertionSort edgeLE l

/-- The tie-breaking order described by the specification's words, for
comparison with the source order: weight ascending, ties by the smaller
endpoint id, then by the larger endpoint id. -/
def tieSpecLE (a b : ImageEdge) : Prop :=
  a.w < b.w ∨ (a.w = b.w ∧
    (min a.n a.m < min b.n b.m ∨ (min a.n a.m = min b.n b.m ∧ max a.n a.m ≤ max b.n b.m)))

instance : DecidableRel tieSpecLE := fun a b =>
  inferInstanceAs (Decidable (_ ∨ _))

/-- The nodes match what a node looks like after graph construction
(`Segmentation::build_graph` initializes `node.l = node.id = node_index`
and never mutates `id` afterwards): the node stored at index `j` has
`id = j`. -/
def id_inv (ns : List ImageNode) : Prop :=
  ∀ j, j < ns.length → (nodeAt ns j).id = j

instance (ns : List ImageNode) : Decidable (id_inv ns) :=
  Nat.decidableBallLT _ _

/-- Every stored label is a valid node index. -/
def closed_labels (ns : List ImageNode) : Prop :=
  ∀ j, j < ns.length → labelAt ns j < ns.length

instance (ns : List ImageNode) : Decidable (closed_labels ns) :=
  Nat.decidableBallLT _ _

/-- Following the label map `L` from `i` eventually reaches a root (a
fixpoint of `L`).  This is the spec's reachability invariant in inductive
form. -/
inductive ReachesRoot (L : ℕ → ℕ) : ℕ → Prop where
  | root (i : ℕ) : L i = i → ReachesRoot L i
  | step (i : ℕ) : L i ≠ i → ReachesRoot L (L i) → ReachesRoot L i

/-- The node array as `Segmentation::build_graph` initializes it: node `j`
has `label = id = j`, `size = 1`, `max_w = 0` (colors are kept separately
by the engine). -/
def initialized_graph (count : ℕ) : ImageGraph :=
  { k := count,
    nodes := (List.range count).map fun j => { label := j, n := 1, id := j, max_w := 0 },
    edges := [] }

/-- Graph states reachable from construction by `merge` (called under its
documented precondition: two distinct roots, in range) and by
`find_component_at`. -/
inductive Reachable : ImageGraph → Prop where
  | init (count : ℕ) : Reachable (initialized_graph count)
  | merge (g : ImageGraph) (a b : ℕ) (e : ImageEdge) :
      Reachable g →
      a < g.nodes.length → b < g.nodes.length →
      (nodeAt g.nodes a).label = (nodeAt g.nodes a).id →
      (nodeAt g.nodes b).label = (nodeAt g.nodes b).id →
      (nodeAt g.nodes a).id ≠ (nodeAt g.nodes b).id →
      Reachable (g.merge a b e)
  | find (g : ImageGraph) (fuel i r : ℕ) (g2 : ImageGraph) :
      Reachable g →
      find_component_at g fuel i = some (r, g2) →
      Reachable g2

/-- One Newton step loop for the integer square root, structurally
recursive on fuel (Lean's `Nat.sqrt` is well-founded and does not reduce
in the kernel, so a fuel-based equivalent is used). -/
def isqrt_iter (ns : ℕ) : ℕ → ℕ → ℕ
  | 0, x => x
  | fuel + 1, x =>
    let next := (x + ns / x) / 2
    if next < x then isqrt_iter ns fuel next else x

/-- Integer square root (floor), by Newton iteration. -/
def isqrt (ns : ℕ) : ℕ :=
  if ns ≤ 1 then ns else isqrt_iter ns ns (ns / 2)

/-- Exact rational square root for perfect-square rationals (numerator and
denominator both perfect squares); on other inputs it returns the floor
square roots of numerator and denominator.  All inputs appearing in this
development are perfect squares, where it is the exact mathematical square
root. -/
def ratSqrt (q : ℚ) : ℚ :=
  mkRat (isqrt q.num.toNat) (isqrt q.den)

/-- A pixel color, from `ImageNodeColor` in
src/lib/src/graph/image_node.rs (blue, green, red channels). -/
structure ImageNodeColor where
  b : ℕ := 0
  g : ℕ := 0
  r : ℕ := 0
deriving DecidableEq, Inhabited

/-- Model of `EuclideanRGB::distance` from
src/lib/src/segmentation/euclidean_distance.rs lines 23-29: the channel
differences are squared and summed, and the square root is scaled by
`1 / sqrt(255^2 * 3)`.  `sqrt(S) / sqrt(195075)` is modelled as the exact
square root of `S / 195075`; both doctest anchors of the source hold in
this model (`distance(black, black) = 0`, `distance(black, white) = 1`). -/
def EuclideanRGB_distance (nc mc : ImageNodeColor) : ℚ :=
  let dr : ℤ := (nc.r : ℤ) - (mc.r : ℤ)
  let dg : ℤ := (nc.g : ℤ) - (mc.g : ℤ)
  let db : ℤ := (nc.b : ℤ) - (mc.b : ℤ)
  ratSqrt (((dr * dr + dg * dg + db * db : ℤ) : ℚ) / 195075)

/-- A node of the segmentation engine's own node vector, as used by
src/lib/src/segmentation/segmentation.rs: parent pointer `l`, identity
`id`, size `n`, maximum internal weight `max_w`, and the three color
channels the engine stores inline. -/
structure SegNode where
  l : ℕ := 0
  id : ℕ := 0
  n : ℕ := 0
  max_w : ℚ := 0
  b : ℕ := 0
  g : ℕ := 0
  r : ℕ := 0
deriving DecidableEq, Inhabited

/-- The segmentation engine state (`Segmentation`): component count `k`,
node vector and edge vector.  The `height`/`width` fields of the source
struct are never read by the verified operations and are omitted. -/
structure SegState where
  k : ℕ
  nodes : List SegNode
  edges : List ImageEdge
deriving DecidableEq

/-- Model of `MagicThreshold::magic` from
src/lib/src/segmentation/magic_threshold.rs lines 25-28: the same
adaptive-threshold formula as `NodeMergingThreshold::should_merge`, on the
engine's node type. -/
def Magic_magic (c : ℚ) (s_n s_m : SegNode) (e : ImageEdge) : Bool :=
  decide (e.w < min (s_n.max_w + c / (s_n.n : ℚ)) (s_m.max_w + c / (s_m.n : ℚ)))

/-- Model of `Segmentation::build_graph` (src/lib/src/segmentation/segmentation.rs
lines 53-112): one node per pixel at flat index `width * i + j`,
initialized with the pixel color, `l = id = node_index`, `n = 1`; one edge
to the bottom neighbor (when `i < height - 1`) and one to the right
neighbor (when `j < width - 1`), weighted by the distance between the two
node colors, pushed in row-major pixel order (bottom edge first).  The
source's double loop writing node `width * i + j` for each `(i, j)` is
expressed as a map over the flat index range. -/
def Segmentation_build_graph (height width : ℕ)
    (dist : SegNode → SegNode → ℚ) (image : ℕ → ℕ → ImageNodeColor) : SegState :=
  let nodes : List SegNode :=
    (List.range (height * width)).map fun node_index =>
      let bgr := image (node_index / width) (node_index % width)
      { l := node_index, id := node_index, n := 1, max_w := 0,
        b := bgr.b, g := bgr.g, r := bgr.r }
  let edges : List ImageEdge :=
    (List.range height).flatMap fun i =>
      (List.range width).flatMap fun j =>
        let node_index := width * i + j
        let node := nodes.getD node_index default
        (if i < height - 1 then
          let other_index := width * (i + 1) + j
          [{ n := node_index, m := other_index,
             w := dist node (nodes.getD other_index default) }]
        else []) ++
        (if j < width - 1 then
          let other_index := width * i + (j + 1)
          [{ n := node_index, m := other_index,
             w := dist node (nodes.getD other_index default) }]
        else [])
  { k := height * width, nodes := nodes, edges := edges }

/-- The `while l != id` loop of `Segmentation::find_node_component_at`
(src/lib/src/segmentation/segmentation.rs lines 278-282), modelled
verbatim: the body sets both `id` and `l` to `node.id` (it never reads
`node.l`), so the loop degenerates after one step. -/
def Segmentation_loop_find (ns : List SegNode) : ℕ → ℕ → ℕ → Option ℕ
  | 0, _, _ => none
  | fuel + 1, l, id =>
    if l = id then some l
    else
      match ns[l]? with
      | none => none
      | some node => Segmentation_loop_find ns fuel node.id node.id

/-- Model of `Segmentation::find_node_component_at` (lines 271-290): walk from the
queried node, assert the found node is a root (`assert_eq!(s.l, s.id)`,
modelled as `none` on failure), write the root id into the queried node's
`l`, and return the root index. -/
def Segmentation_find_node_component_at (st : SegState) (index : ℕ) :
    Option (ℕ × SegState) :=
  match st.nodes[index]? with
  | none => none
  | some node =>
    match Segmentation_loop_find st.nodes (st.nodes.length + 2) node.l node.id with
    | none => none
    | some l =>
      match st.nodes[l]? with
      | none => none
      | some s =>
        if s.l = s.id then
          some (l, { st with nodes := st.nodes.set index { node with l := s.id } })
        else none

/-- Model of `Segmentation::merge` (lines 198-209), with the two nodes addressed by
index: `s_m.l = s_n.id`, `s_n.n += s_m.n`,
`s_n.max_w = s_n.max_w.max(s_m.max_w).max(e.w)`, `k -= 1`. -/
def Segmentation_merge (st : SegState) (a bIdx : ℕ) (e : ImageEdge) : SegState :=
  let s_n := st.nodes.getD a default
  let s_m := st.nodes.getD bIdx default
  { st with
    nodes := (st.nodes.set a
        { s_n with n := s_n.n + s_m.n, max_w := max (max s_n.max_w s_m.max_w) e.w }).set
      bIdx { s_m with l := s_n.id },
    k := st.k - 1 }

/-- Model of `Segmentation::sort_edges` (lines 330-332): a stable sort by weight
only (`sort_by` with `partial_cmp` on `w`); insertion sort as defined in
Mathlib is stable and models it exactly. -/
def Segmentation_sort_edges (st : SegState) : SegState :=
  { st with edges := List.insertionSort (fun a b => a.w ≤ b.w) st.edges }

/-- One iteration of the `oversegment_graph` edge loop (lines 122-138):
resolve both endpoints' components, and if the components differ and the
merge predicate accepts, merge them. -/
def Segmentation_oversegment_step (c : ℚ) (st : SegState) (edge : ImageEdge) :
    Option SegState :=
  match Segmentation_find_node_component_at st edge.n with
  | none => none
  | some (r1, st1) =>
    match Segmentation_find_node_component_at st1 edge.m with
    | none => none
    | some (r2, st2) =>
      let s_n := st2.nodes.getD r1 default
      let s_m := st2.nodes.getD r2 default
      if s_m.id ≠ s_n.id then
        if Magic_magic c s_n s_m edge then some (Segmentation_merge st2 r1 r2 edge)
        else some st2
      else some st2

/-- Model of `Segmentation::oversegment_graph` (lines 115-139): assert the graph is
non-empty, sort the edges, then run the merge loop over the sorted edge
list exactly once. -/
def Segmentation_oversegment_graph (c : ℚ) (st : SegState) : Option SegState :=
  if st.nodes.length = 0 ∨ st.edges.length = 0 then none
  else
    let sorted := Segmentation_sort_edges st
    sorted.edges.foldlM (Segmentation_oversegment_step c) sorted

/-- Modelled from the spec: `Segmentation::enforce_minimum_segment_size`
is declared in src/lib/src/segmentation/segmentation.rs lines 146-148 but
its body is `unimplemented!()`; the per-edge behavior is taken from the
specification (section 4.4, phase 3): resolve both endpoints' roots, and
if they are distinct and at least one component's size is below the
minimum `m`, merge unconditionally.  Component resolution and merging use
the graph operations embedded above from src. -/
def enforce_step (m : ℕ) (g : ImageGraph) (e : ImageEdge) : Option ImageGraph :=
  match find_component_at g (g.nodes.length + 1) e.n with
  | none => none
  | some (r1, g1) =>
    match find_component_at g1 (g1.nodes.length + 1) e.m with
    | none => none
    | some (r2, g2) =>
      if r1 ≠ r2 ∧ ((nodeAt g2.nodes r1).n < m ∨ (nodeAt g2.nodes r2).n < m) then
        some (g2.merge r1 r2 e)
      else some g2

/-- Modelled from the spec: the enforce pass iterates the graph's edge
list exactly once, applying `enforce_step` to each edge in order. -/
def enforce_minimum_segment_size (m : ℕ) (g : ImageGraph) : Option ImageGraph :=
  g.edges.foldlM (enforce_step m) g

/-- The 2x2 test image `[[black, black], [black, white]]`. -/
def scenario_image : ℕ → ℕ → ImageNodeColor := fun i j =>
  if i = 1 ∧ j = 1 then { b := 255, g := 255, r := 255 } else { b := 0, g := 0, r := 0 }

/-- The engine's distance call `self.distance.distance(&node, &other)`
with `EuclideanRGB`, reading the colors the nodes store. -/
def scenario_dist (a bn : SegNode) : ℚ :=
  EuclideanRGB_distance { b := a.b, g := a.g, r := a.r } { b := bn.b, g := bn.g, r := bn.r }

/-- The graph built from the 2x2 scenario image. -/
def scenario_built : SegState :=
  Segmentation_build_graph 2 2 scenario_dist scenario_image

/-- The scenario graph after `oversegment_graph` with `c = 0`. -/
def scenario_result : Option SegState :=
  Segmentation_oversegment_graph 0 scenario_built

/-- The conjunction of the structural invariants a correctly built graph
maintains: ids equal indices, labels stay in range, and every node's label
chain reaches a root. -/
def GoodState (g : ImageGraph) : Prop :=
  id_inv g.nodes ∧ closed_labels g.nodes ∧
    ∀ i, i < g.nodes.length → ReachesRoot (labelAt g.nodes) i

/-- A three-node graph after two merges, leaving the label chain
`2 -> 1 -> 0`: node 2 is two steps away from its root.  Used as a concrete
instance for the component-resolution theorems. -/
def exampleGraph : ImageGraph :=
  ((initialized_graph 3).merge 1 2 { n := 1, m := 2, w := 0 }).merge 0 1
    { n := 0, m := 1, w := 0 }

/-- State of `exampleGraph` after resolving node 2's component: only node 2's label
is rewritten, to the root id 0. -/
def exampleGraphFound : ImageGraph :=
  { exampleGraph with
    nodes := exampleGraph.nodes.set 2 { nodeAt exampleGraph.nodes 2 with label := 0 } }

theorem cmpQ_lt {a b : ℚ} (h : a < b) : cmpQ a b = Ordering.lt := by
  simp [cmpQ, h]

theorem cmpQ_gt {a b : ℚ} (h : b < a) : cmpQ a b = Ordering.gt := by
  simp [cmpQ, h, asymm h]

theorem cmpQ_eq {a b : ℚ} (h : a = b) : cmpQ a b = Ordering.eq := by
  simp [cmpQ, h]

theorem cmpN_lt {a b : ℕ} (h : a < b) : cmpN a b = Ordering.lt := by
  simp [cmpN, h]

theorem cmpN_gt {a b : ℕ} (h : b < a) : cmpN a b = Ordering.gt := by
  simp [cmpN, h, Nat.lt_asymm h]

theorem cmpN_eq {a b : ℕ} (h : a = b) : cmpN a b = Ordering.eq := by
  simp [cmpN, h]

theorem edgeLE_iff (a b : ImageEdge) :
    edgeLE a b ↔ (a.w < b.w ∨ (a.w = b.w ∧ (a.n < b.n ∨ (a.n = b.n ∧ a.m ≤ b.m)))) := by
  unfold edgeLE ImageEdge.cmp
  rcases lt_trichotomy a.w b.w with hw | hw | hw
  · simp only [cmpQ_lt hw, Ordering.then]
    simp [hw]
  · rcases Nat.lt_trichotomy a.n b.n with hn | hn | hn
    · simp only [cmpQ_eq hw, cmpN_lt hn, Ordering.then]
      simp [hw, hn]
    · rcases Nat.lt_trichotomy a.m b.m with hm | hm | hm
      · simp only [cmpQ_eq hw, cmpN_eq hn, cmpN_lt hm, Ordering.then]
        simp [hw, hn, Nat.le_of_lt hm]
      · simp only [cmpQ_eq hw, cmpN_eq hn, cmpN_eq hm, Ordering.then]
        simp [hw, hn, Nat.le_of_eq hm]
      · simp only [cmpQ_eq hw, cmpN_eq hn, cmpN_gt hm, Ordering.then]
        simp only [ne_eq, not_true_eq_false, false_iff]
        rintro (h | ⟨h, h2 | ⟨h2, h3⟩⟩)
        · exact absurd hw (ne_of_lt h)
        · omega
        · omega
    · simp only [cmpQ_eq hw, cmpN_gt hn, Ordering.then]
      simp only [ne_eq, not_true_eq_false, false_iff]
      rintro (h | ⟨h, h2 | ⟨h2, h3⟩⟩)
      · exact absurd hw (ne_of_lt h)
      · omega
      · omega
  · simp only [cmpQ_gt hw, Ordering.then]
    simp only [ne_eq, not_true_eq_false, false_iff]
    rintro (h | ⟨h, h2⟩)
    · exact absurd h (asymm hw)
    · exact absurd h (ne_of_gt hw)

theorem edge_cmp_eq_iff (a b : ImageEdge) : a.cmp b = Ordering.eq ↔ a = b := by
  unfold ImageEdge.cmp
  constructor
  · intro h
    rcases lt_trichotomy a.w b.w with hw | hw | hw
    · simp [cmpQ_lt hw, Ordering.then] at h
    · rcases Nat.lt_trichotomy a.n b.n with hn | hn | hn
      · simp [cmpQ_eq hw, cmpN_lt hn, Ordering.then] at h
      · rcases Nat.lt_trichotomy a.m b.m with hm | hm | hm
        · simp [cmpQ_eq hw, cmpN_eq hn, cmpN_lt hm, Ordering.then] at h
        · cases a; cases b; simp_all
        · simp [cmpQ_eq hw, cmpN_eq hn, cmpN_gt hm, Ordering.then] at h
      · simp [cmpQ_eq hw, cmpN_gt hn, Ordering.then] at h
    · simp [cmpQ_gt hw, Ordering.then] at h
  · rintro rfl
    simp [cmpQ_eq rfl, cmpN_eq rfl, Ordering.then]

instance : IsTotal ImageEdge edgeLE := by
  constructor
  intro a b
  rw [edgeLE_iff, edgeLE_iff]
  rcases lt_trichotomy a.w b.w with hw | hw | hw
  · exact Or.inl (Or.inl hw)
  · rcases Nat.lt_trichotomy a.n b.n with hn | hn | hn
    · exact Or.inl (Or.inr ⟨hw, Or.inl hn⟩)
    · rcases Nat.le_total a.m b.m with hm | hm
      · exact Or.inl (Or.inr ⟨hw, Or.inr ⟨hn, hm⟩⟩)
      · exact Or.inr (Or.inr ⟨hw.symm, Or.inr ⟨hn.symm, hm⟩⟩)
    · exact Or.inr (Or.inr ⟨hw.symm, Or.inl hn⟩)
  · exact Or.inr (Or.inl hw)

instance : IsTrans ImageEdge edgeLE := by
  constructor
  intro a b c hab hbc
  rw [edgeLE_iff] at hab hbc ⊢
  rcases hab with h1 | ⟨h1, h2⟩ <;> rcases hbc with h3 | ⟨h3, h4⟩
  · exact Or.inl (h1.trans h3)
  · exact Or.inl (h3 ▸ h1)
  · exact Or.inl (h1 ▸ h3)
  · refine Or.inr ⟨h1.trans h3, ?_⟩
    rcases h2 with h2 | ⟨h2, h5⟩ <;> rcases h4 with h4 | ⟨h4, h6⟩
    · exact Or.inl (h2.trans h4)
    · exact Or.inl (h4 ▸ h2)
    · exact Or.inl (h2 ▸ h4)
    · exact Or.inr ⟨h2.trans h4, h5.trans h6⟩

instance : IsAntisymm ImageEdge edgeLE := by
  constructor
  intro a b hab hba
  rw [edgeLE_iff] at hab hba
  have hw : a.w = b.w := by
    rcases hab with h | ⟨h, _⟩ <;> rcases hba with h2 | ⟨h2, _⟩ <;>
      first | exact absurd h2 (asymm h) | exact h | exact h2.symm
  have hn : a.n = b.n := by
    rcases hab with h | ⟨_, h | ⟨h, _⟩⟩ <;> rcases hba with h2 | ⟨_, h2 | ⟨h2, _⟩⟩ <;>
      first
        | omega
        | (exfalso; exact absurd hw (ne_of_lt h))
        | (exfalso; exact absurd hw.symm (ne_of_lt h2))
  have hm : a.m = b.m := by
    rcases hab with h | ⟨_, h | ⟨_, h⟩⟩ <;> rcases hba with h2 | ⟨_, h2 | ⟨_, h2⟩⟩ <;>
      first
        | omega
        | (exfalso; exact absurd hw (ne_of_lt h))
        | (exfalso; exact absurd hw.symm (ne_of_lt h2))
  cases a; cases b; simp_all

theorem edge_cmp_lt_iff (a b : ImageEdge) :
    a.cmp b = Ordering.lt ↔
      (a.w < b.w ∨ (a.w = b.w ∧ (a.n < b.n ∨ (a.n = b.n ∧ a.m < b.m)))) := by
  unfold ImageEdge.cmp
  rcases lt_trichotomy a.w b.w with hw | hw | hw
  · simp only [cmpQ_lt hw, Ordering.then]
    exact iff_of_true trivial (Or.inl hw)
  · rcases Nat.lt_trichotomy a.n b.n with hn | hn | hn
    · simp only [cmpQ_eq hw, cmpN_lt hn, Ordering.then]
      exact iff_of_true trivial (Or.inr ⟨hw, Or.inl hn⟩)
    · rcases Nat.lt_trichotomy a.m b.m with hm | hm | hm
      · simp only [cmpQ_eq hw, cmpN_eq hn, cmpN_lt hm, Ordering.then]
        exact iff_of_true trivial (Or.inr ⟨hw, Or.inr ⟨hn, hm⟩⟩)
      · simp only [cmpQ_eq hw, cmpN_eq hn, cmpN_eq hm, Ordering.then]
        refine iff_of_false (by decide) ?_
        rintro (h | ⟨h, h2 | ⟨h2, h3⟩⟩)
        · exact absurd hw (ne_of_lt h)
        · omega
        · omega
      · simp only [cmpQ_eq hw, cmpN_eq hn, cmpN_gt hm, Ordering.then]
        refine iff_of_false (by decide) ?_
        rintro (h | ⟨h, h2 | ⟨h2, h3⟩⟩)
        · exact absurd hw (ne_of_lt h)
        · omega
        · omega
    · simp only [cmpQ_eq hw, cmpN_gt hn, Ordering.then]
      refine iff_of_false (by decide) ?_
      rintro (h | ⟨h, h2 | ⟨h2, h3⟩⟩)
      · exact absurd hw (ne_of_lt h)
      · omega
      · omega
  · simp only [cmpQ_gt hw, Ordering.then]
    refine iff_of_false (by decide) ?_
    rintro (h | ⟨h, h2⟩)
    · exact absurd h (asymm hw)
    · exact absurd h (ne_of_gt hw)

theorem edge_cmp_gt_iff (a b : ImageEdge) :
    a.cmp b = Ordering.gt ↔
      (b.w < a.w ∨ (a.w = b.w ∧ (b.n < a.n ∨ (a.n = b.n ∧ b.m < a.m)))) := by
  unfold ImageEdge.cmp
  rcases lt_trichotomy a.w b.w with hw | hw | hw
  · simp only [cmpQ_lt hw, Ordering.then]
    refine iff_of_false (by decide) ?_
    rintro (h | ⟨h, h2⟩)
    · exact absurd h (asymm hw)
    · exact absurd h (ne_of_lt hw)
  · rcases Nat.lt_trichotomy a.n b.n with hn | hn | hn
    · simp only [cmpQ_eq hw, cmpN_lt hn, Ordering.then]
      refine iff_of_false (by decide) ?_
      rintro (h | ⟨h, h2 | ⟨h2, h3⟩⟩)
      · exact absurd hw.symm (ne_of_lt h)
      · omega
      · omega
    · rcases Nat.lt_trichotomy a.m b.m with hm | hm | hm
      · simp only [cmpQ_eq hw, cmpN_eq hn, cmpN_lt hm, Ordering.then]
        refine iff_of_false (by decide) ?_
        rintro (h | ⟨h, h2 | ⟨h2, h3⟩⟩)
        · exact absurd hw.symm (ne_of_lt h)
        · omega
        · omega
      · simp only [cmpQ_eq hw, cmpN_eq hn, cmpN_eq hm, Ordering.then]
        refine iff_of_false (by decide) ?_
        rintro (h | ⟨h, h2 | ⟨h2, h3⟩⟩)
        · exact absurd hw.symm (ne_of_lt h)
        · omega
        · omega
      · simp only [cmpQ_eq hw, cmpN_eq hn, cmpN_gt hm, Ordering.then]
        exact iff_of_true trivial (Or.inr ⟨hw, Or.inr ⟨hn, hm⟩⟩)
    · simp only [cmpQ_eq hw, cmpN_gt hn, Ordering.then]
      exact iff_of_true trivial (Or.inr ⟨hw, Or.inl hn⟩)
  · simp only [cmpQ_gt hw, Ordering.then]
    exact iff_of_true trivial (Or.inl hw)

/-- C7 counterexample: on an edge list whose entries have their larger
endpoint stored first, `sort_by_weight` orders equal-weight edges by the
stored first endpoint `n`, not by the smaller endpoint id, so the claimed
tie order is violated. -/
theorem claim_c7_counterexample :
    sort_by_weight [{ n := 5, m := 2, w := 0 }, { n := 3, m := 4, w := 0 }] =
        [{ n := 3, m := 4, w := 0 }, { n := 5, m := 2, w := 0 }] ∧
      ¬ List.Sorted tieSpecLE
          (sort_by_weight [{ n := 5, m := 2, w := 0 }, { n := 3, m := 4, w := 0 }]) := by
  constructor
  · decide
  · decide

/-- C7 (amended): `sort_by_weight` returns a permutation of the input
sorted ascending by weight with ties broken by the first stored endpoint
id `n` and then the second stored endpoint id `m` (for edges as built by
the engine, which stores the smaller endpoint in `n`, this coincides with
the claimed order); the order is total and antisymmetric, so the result is
the unique sorted permutation, determined by the multiset of edges. -/
theorem claim_c7 (l l2 : List ImageEdge) (hp : l2.Perm l)
    (hs : List.Sorted edgeLE l2) :
    (sort_by_weight l).Perm l ∧ List.Sorted edgeLE (sort_by_weight l) ∧
      l2 = sort_by_weight l := by
  refine ⟨List.perm_insertionSort edgeLE l, List.sorted_insertionSort edgeLE l, ?_⟩
  exact List.eq_of_perm_of_sorted (hp.trans (List.perm_insertionSort edgeLE l).symm) hs
    (List.sorted_insertionSort edgeLE l)

/-- C7 witness: a two-edge instance of `claim_c7`. -/
theorem claim_c7_witness :
    (sort_by_weight [{ n := 1, m := 2, w := 0 }, { n := 0, m := 1, w := 0 }]).Perm
        [{ n := 1, m := 2, w := 0 }, { n := 0, m := 1, w := 0 }] ∧
      List.Sorted edgeLE
        (sort_by_weight [{ n := 1, m := 2, w := 0 }, { n := 0, m := 1, w := 0 }]) ∧
      [{ n := 0, m := 1, w := 0 }, { n := 1, m := 2, w := 0 }] =
        sort_by_weight [{ n := 1, m := 2, w := 0 }, { n := 0, m := 1, w := 0 }] :=
  claim_c7 [{ n := 1, m := 2, w := 0 }, { n := 0, m := 1, w := 0 }]
    [{ n := 0, m := 1, w := 0 }, { n := 1, m := 2, w := 0 }]
    (List.Perm.swap ({ n := 1, m := 2, w := 0 } : ImageEdge)
      ({ n := 0, m := 1, w := 0 } : ImageEdge) [])
    (by decide)

/-- C10 counterexample: for `a = (n 1, m 0, w 0)` and `b = (n 0, m 1, w 0)`
the overridden `lt` returns `true` (the `m` disjunct fires) while `cmp`
returns `Greater`, so `lt` does not coincide with `cmp == Less`. -/
theorem claim_c10_counterexample :
    ¬ (ImageEdge.ltOp { n := 1, m := 0, w := 0 } { n := 0, m := 1, w := 0 } = true ↔
        ImageEdge.cmp { n := 1, m := 0, w := 0 } { n := 0, m := 1, w := 0 } =
          Ordering.lt) := by
  decide

/-- C10 (amended): `partial_cmp` agrees with `cmp` exactly, and the
overridden operators are only one-sidedly consistent with `cmp`:
`cmp = Less` implies `lt`, `le` implies `cmp ≠ Greater`, `cmp = Greater`
implies `gt`, and `ge` implies `cmp ≠ Less`; the converses fail (see the
counterexample), so operator comparisons and the sort order do not agree
on a common total order. -/
theorem claim_c10 (a b : ImageEdge) :
    a.cmpOpt b = some (a.cmp b) ∧
      (a.cmp b ≠ Ordering.lt ∨ a.ltOp b = true) ∧
      (a.leOp b = false ∨ a.cmp b ≠ Ordering.gt) ∧
      (a.cmp b ≠ Ordering.gt ∨ a.gtOp b = true) ∧
      (a.geOp b = false ∨ a.cmp b ≠ Ordering.lt) := by
  refine ⟨rfl, ?_, ?_, ?_, ?_⟩
  · by_cases h : a.cmp b = Ordering.lt
    · refine Or.inr ?_
      simp only [ImageEdge.ltOp, Bool.or_eq_true, decide_eq_true_eq]
      rcases (edge_cmp_lt_iff a b).mp h with h1 | ⟨h1, h2 | ⟨h2, h3⟩⟩
      · exact Or.inl (Or.inl h1)
      · exact Or.inl (Or.inr h2)
      · exact Or.inr h3
    · exact Or.inl h
  · by_cases h : a.leOp b = false
    · exact Or.inl h
    · refine Or.inr fun hgt => ?_
      have hle : (a.w ≤ b.w ∧ a.n ≤ b.n) ∧ a.m ≤ b.m := by
        simpa [ImageEdge.leOp] using eq_true_of_ne_false h
      obtain ⟨⟨hw1, hn1⟩, hm1⟩ := hle
      rcases (edge_cmp_gt_iff a b).mp hgt with h1 | ⟨h1, h2 | ⟨h2, h3⟩⟩
      · exact absurd hw1 h1.not_le
      · omega
      · omega
  · by_cases h : a.cmp b = Ordering.gt
    · refine Or.inr ?_
      simp only [ImageEdge.gtOp, Bool.or_eq_true, decide_eq_true_eq]
      rcases (edge_cmp_gt_iff a b).mp h with h1 | ⟨h1, h2 | ⟨h2, h3⟩⟩
      · exact Or.inl (Or.inl h1)
      · exact Or.inl (Or.inr h2)
      · exact Or.inr h3
    · exact Or.inl h
  · by_cases h : a.geOp b = false
    · exact Or.inl h
    · refine Or.inr fun hlt => ?_
      have hge : (b.w ≤ a.w ∧ b.n ≤ a.n) ∧ b.m ≤ a.m := by
        simpa [ImageEdge.geOp] using eq_true_of_ne_false h
      obtain ⟨⟨hw1, hn1⟩, hm1⟩ := hge
      rcases (edge_cmp_lt_iff a b).mp hlt with h1 | ⟨h1, h2 | ⟨h2, h3⟩⟩
      · exact absurd hw1 h1.not_le
      · omega
      · omega

/-- C1: the merge predicate accepts exactly when the edge weight is
strictly below the smaller of the two adaptive thresholds
`max_internal_weight + c / size`. -/
theorem claim_c1 (c : ℚ) (s_n s_m : ImageNode) (e : ImageEdge)
    (h : s_n.id ≠ s_m.id) :
    should_merge c s_n s_m e = true ↔
      e.w < min (s_n.max_w + c / (s_n.n : ℚ)) (s_m.max_w + c / (s_m.n : ℚ)) := by
  simp [should_merge]

/-- C1 witness: two distinct singleton roots with zero internal weight. -/
theorem claim_c1_witness :
    should_merge 0 { label := 0, n := 1, id := 0, max_w := 0 }
        { label := 1, n := 1, id := 1, max_w := 0 } { n := 0, m := 1, w := 0 } = true ↔
      (0 : ℚ) < min ((0 : ℚ) + 0 / ((1 : ℕ) : ℚ)) ((0 : ℚ) + 0 / ((1 : ℕ) : ℚ)) :=
  claim_c1 0 { label := 0, n := 1, id := 0, max_w := 0 }
    { label := 1, n := 1, id := 1, max_w := 0 } { n := 0, m := 1, w := 0 } (by decide)

/-- C6 counterexample: `new_with_nodes(1)` allocates `Default::default()`
nodes, whose size is `0`, not `1` as claimed ("size equal to 1"). -/
theorem claim_c6_counterexample :
    ¬ ((nodeAt (new_with_nodes 1).nodes 0).n = 1) := by
  decide

/-- C6 (amended): `new_with_nodes(count)` produces a graph with exactly
`count` nodes, all equal to the default node (label 0, size 0, id 0,
max_internal_weight 0 — per-node label/id/size initialization happens
later, in the engine's graph build), an empty edge list, and
`component_count = count`. -/
theorem claim_c6 (count : ℕ) :
    (new_with_nodes count).nodes =
        List.replicate count { label := 0, n := 0, id := 0, max_w := 0 } ∧
      (new_with_nodes count).nodes.length = count ∧
      (new_with_nodes count).edges = [] ∧
      (new_with_nodes count).k = count := by
  refine ⟨rfl, ?_, rfl, rfl⟩
  simp [new_with_nodes]


/-- C2: `merge` on two distinct in-range roots re-labels the second root
with the first root's id, adds the sizes, takes the maximum of the two
internal weights and the edge weight, and decrements the component count
by exactly one.  All other nodes, the edge list, and the first root's
label and both ids are untouched. -/
theorem claim_c2 (g : ImageGraph) (a b : ℕ) (e : ImageEdge)
    (ha : a < g.nodes.length) (hb : b < g.nodes.length)
    (hra : (nodeAt g.nodes a).label = (nodeAt g.nodes a).id)
    (hrb : (nodeAt g.nodes b).label = (nodeAt g.nodes b).id)
    (hid : (nodeAt g.nodes a).id ≠ (nodeAt g.nodes b).id)
    (hk : 0 < g.k) :
    (nodeAt (g.merge a b e).nodes b).label = (nodeAt g.nodes a).id ∧
      (nodeAt (g.merge a b e).nodes a).n = (nodeAt g.nodes a).n + (nodeAt g.nodes b).n ∧
      (nodeAt (g.merge a b e).nodes a).max_w =
        max (max (nodeAt g.nodes a).max_w (nodeAt g.nodes b).max_w) e.w ∧
      (g.merge a b e).k + 1 = g.k ∧
      (g.merge a b e).edges = g.edges ∧
      (∀ j, j ≠ a → j ≠ b → nodeAt (g.merge a b e).nodes j = nodeAt g.nodes j) := by
  have hab : a ≠ b := fun hcontra => hid (by rw [hcontra])
  unfold ImageGraph.merge
  simp only [nodeAt, List.getD_eq_getElem?_getD]
  refine ⟨?_, ?_, ?_, by omega, by trivial, ?_⟩
  · rw [List.getElem?_set_self (by simpa using hb)]
    rfl
  · rw [List.getElem?_set_ne hab.symm, List.getElem?_set_self ha]
    rfl
  · rw [List.getElem?_set_ne hab.symm, List.getElem?_set_self ha]
    rfl
  · intro j hja hjb
    rw [List.getElem?_set_ne (fun hcontra => hjb hcontra.symm),
      List.getElem?_set_ne (fun hcontra => hja hcontra.symm)]

/-- C2 witness: merging the two roots of a freshly initialized two-node
graph along a zero-weight edge. -/
theorem claim_c2_witness :
    (nodeAt ((initialized_graph 2).merge 0 1 { n := 0, m := 1, w := 0 }).nodes 1).label =
        (nodeAt (initialized_graph 2).nodes 0).id ∧
      (nodeAt ((initialized_graph 2).merge 0 1 { n := 0, m := 1, w := 0 }).nodes 0).n =
        (nodeAt (initialized_graph 2).nodes 0).n + (nodeAt (initialized_graph 2).nodes 1).n ∧
      (nodeAt ((initialized_graph 2).merge 0 1 { n := 0, m := 1, w := 0 }).nodes 0).max_w =
        max (max (nodeAt (initialized_graph 2).nodes 0).max_w
          (nodeAt (initialized_graph 2).nodes 1).max_w) ({ n := 0, m := 1, w := 0 } : ImageEdge).w ∧
      ((initialized_graph 2).merge 0 1 { n := 0, m := 1, w := 0 }).k + 1 =
        (initialized_graph 2).k ∧
      ((initialized_graph 2).merge 0 1 { n := 0, m := 1, w := 0 }).edges =
        (initialized_graph 2).edges ∧
      (∀ j, j ≠ 0 → j ≠ 1 →
        nodeAt ((initialized_graph 2).merge 0 1 { n := 0, m := 1, w := 0 }).nodes j =
          nodeAt (initialized_graph 2).nodes j) :=
  claim_c2 (initialized_graph 2) 0 1 { n := 0, m := 1, w := 0 }
    (by decide) (by decide) (by decide) (by decide) (by decide) (by decide)

/-- C5 counterexample: in the 2x2 scenario the built graph has two edges
of weight 1 (both black-white pairs), not one, and with `c = 0` the strict
comparison `w < 0` rejects even the zero-weight edges, so the run ends
with 4 components, not 2. -/
theorem claim_c5_counterexample :
    ¬ (scenario_built.edges.countP (fun e => decide (e.w = 1)) = 1 ∧
        scenario_built.edges.countP (fun e => decide (e.w = 0)) = 3 ∧
        scenario_result.map SegState.k = some 2) := by
  with_unfolding_all decide

/-- C5 (amended): the 2x2 build yields 4 nodes and 4 edges — two
horizontal, two vertical — with exactly two edges of weight 1.0 (the two
black-white pairs) and two of weight 0.0; with `c = 0` every threshold is
`0 + 0/size = 0` and the predicate requires `w < 0` strictly, so
Oversegment merges nothing: the result is the sorted but otherwise
unchanged graph, with 4 components and 4 distinct labels. -/
theorem claim_c5 :
    scenario_built.nodes.length = 4 ∧
      scenario_built.edges.length = 4 ∧
      scenario_built.edges.map (fun e => (e.n, e.m)) = [(0, 2), (0, 1), (1, 3), (2, 3)] ∧
      scenario_built.edges.countP (fun e => decide (e.w = 0)) = 2 ∧
      scenario_built.edges.countP (fun e => decide (e.w = 1)) = 2 ∧
      scenario_result = some (Segmentation_sort_edges scenario_built) ∧
      scenario_result.map SegState.k = some 4 ∧
      scenario_result.map (fun st => (st.nodes.map SegNode.l).dedup.length) = some 4 := by
  with_unfolding_all decide

/-- C8: the enforce pass folds over the edge list exactly once, and each
step resolves both endpoints' roots and merges exactly when the roots are
distinct and at least one component is smaller than the minimum `m` — the
weight-based predicate plays no role in the decision. -/
theorem claim_c8 (m : ℕ) (g : ImageGraph) (e : ImageEdge) (r1 r2 : ℕ)
    (g1 g2 : ImageGraph)
    (h1 : find_component_at g (g.nodes.length + 1) e.n = some (r1, g1))
    (h2 : find_component_at g1 (g1.nodes.length + 1) e.m = some (r2, g2)) :
    enforce_minimum_segment_size m g = g.edges.foldlM (enforce_step m) g ∧
      enforce_step m g e =
        if r1 ≠ r2 ∧ ((nodeAt g2.nodes r1).n < m ∨ (nodeAt g2.nodes r2).n < m) then
          some (g2.merge r1 r2 e)
        else some g2 := by
  refine ⟨rfl, ?_⟩
  unfold enforce_step
  simp only [h1, h2]

/-- C8 witness: two singleton roots joined by an edge of weight 7; with
minimum size 5 both components are undersized, so the step merges them
even though the weight-based predicate (here with `c = 1`) rejects the
edge. -/
theorem claim_c8_witness :
    (enforce_minimum_segment_size 5 (initialized_graph 2) =
        (initialized_graph 2).edges.foldlM (enforce_step 5) (initialized_graph 2) ∧
      enforce_step 5 (initialized_graph 2) { n := 0, m := 1, w := 7 } =
        if (0 : ℕ) ≠ 1 ∧ ((nodeAt (initialized_graph 2).nodes 0).n < 5 ∨
            (nodeAt (initialized_graph 2).nodes 1).n < 5) then
          some ((initialized_graph 2).merge 0 1 { n := 0, m := 1, w := 7 })
        else some (initialized_graph 2)) ∧
      enforce_step 5 (initialized_graph 2) { n := 0, m := 1, w := 7 } =
        some ((initialized_graph 2).merge 0 1 { n := 0, m := 1, w := 7 }) ∧
      should_merge 1 (nodeAt (initialized_graph 2).nodes 0)
        (nodeAt (initialized_graph 2).nodes 1) { n := 0, m := 1, w := 7 } = false := by
  refine ⟨claim_c8 5 (initialized_graph 2) { n := 0, m := 1, w := 7 } 0 1
    (initialized_graph 2) (initialized_graph 2) (by decide) (by decide), ?_, ?_⟩
  · have h := (claim_c8 5 (initialized_graph 2) { n := 0, m := 1, w := 7 } 0 1
      (initialized_graph 2) (initialized_graph 2) (by decide) (by decide)).2
    rw [h, if_pos (by decide)]
  · with_unfolding_all decide

theorem nodeAt_of_getElem {ns : List ImageNode} {i : ℕ} {nd : ImageNode}
    (h : ns[i]? = some nd) : nodeAt ns i = nd := by
  simp [nodeAt, List.getD_eq_getElem?_getD, h]

theorem getElem?_nodeAt {ns : List ImageNode} {i : ℕ} (h : i < ns.length) :
    ns[i]? = some (nodeAt ns i) := by
  simp [nodeAt, List.getD_eq_getElem?_getD, List.getElem?_eq_getElem h]

theorem loop_find_mono {ns : List ImageNode} :
    ∀ {fuel fuel2 l id r : ℕ}, loop_find ns fuel l id = some r → fuel ≤ fuel2 →
      loop_find ns fuel2 l id = some r := by
  intro fuel
  induction fuel with
  | zero => intro fuel2 l id r h; simp [loop_find] at h
  | succ f ih =>
    intro fuel2 l id r h hle
    obtain ⟨f2, rfl⟩ : ∃ f2, fuel2 = f2 + 1 := ⟨fuel2 - 1, by omega⟩
    rw [loop_find] at h ⊢
    by_cases hli : l = id
    · rwa [if_pos hli] at h ⊢
    · rw [if_neg hli] at h ⊢
      cases htok : ns[l]? with
      | none => rw [htok] at h; simp at h
      | some token =>
        rw [htok] at h
        exact ih h (by omega)

theorem loop_find_two_le {ns : List ImageNode} {fuel l id r : ℕ}
    (h : loop_find ns fuel l id = some r) (hne : l ≠ id) : 2 ≤ fuel := by
  match fuel with
  | 0 => simp [loop_find] at h
  | 1 =>
    rw [loop_find, if_neg hne] at h
    cases htok : ns[l]? with
    | none => rw [htok] at h; simp at h
    | some token =>
      rw [htok] at h
      have h4 : loop_find ns 0 token.label token.id = some r := h
      simp [loop_find] at h4
  | (f + 2) => omega

theorem loop_find_sound {ns : List ImageNode} (hid : id_inv ns) :
    ∀ (fuel l id r : ℕ), loop_find ns fuel l id = some r → id < ns.length →
      l = labelAt ns id →
      labelAt ns r = r ∧ r < ns.length ∧ ∃ k, (labelAt ns)^[k + 1] id = r := by
  intro fuel
  induction fuel with
  | zero => intro l id r h; simp [loop_find] at h
  | succ f ih =>
    intro l id r h hidlt hl
    rw [loop_find] at h
    by_cases hli : l = id
    · rw [if_pos hli] at h
      obtain rfl : l = r := by simpa using h
      subst hli
      have hroot : labelAt ns l = l := hl.symm
      exact ⟨hroot, hidlt, 0, by simpa using hroot⟩
    · rw [if_neg hli] at h
      cases htok : ns[l]? with
      | none => rw [htok] at h; simp at h
      | some token =>
        rw [htok] at h
        have h3 : loop_find ns f token.label token.id = some r := h
        have hlt : l < ns.length := by
          rcases List.getElem?_eq_some_iff.mp htok with ⟨hh, _⟩
          exact hh
        have htok2 : token = nodeAt ns l := (nodeAt_of_getElem htok).symm
        have htid : token.id = l := by rw [htok2]; exact hid l hlt
        have htlabel : token.label = labelAt ns l := by rw [htok2]; rfl
        rw [htid, htlabel] at h3
        obtain ⟨hr1, hr2, k, hk⟩ := ih (labelAt ns l) l r h3 hlt rfl
        refine ⟨hr1, hr2, k + 1, ?_⟩
        rw [Function.iterate_succ_apply (labelAt ns) (k + 1) id, ← hl, hl, ← hk]
        rw [hl]

theorem loop_find_exists {ns : List ImageNode} (hid : id_inv ns)
    (hcl : closed_labels ns) :
    ∀ id, ReachesRoot (labelAt ns) id → id < ns.length →
      ∃ fuel r, loop_find ns fuel (labelAt ns id) id = some r := by
  intro id hrr
  induction hrr with
  | root j hj =>
    intro hlt
    exact ⟨1, j, by rw [loop_find, if_pos hj, hj]⟩
  | step j hj hrec ih =>
    intro hlt
    have hjl : labelAt ns j < ns.length := hcl j hlt
    obtain ⟨fuel, r, hf⟩ := ih hjl
    refine ⟨fuel + 1, r, ?_⟩
    rw [loop_find, if_neg hj, getElem?_nodeAt hjl]
    have h1 : (nodeAt ns (labelAt ns j)).id = labelAt ns j := hid _ hjl
    show loop_find ns fuel (nodeAt ns (labelAt ns j)).label
      (nodeAt ns (labelAt ns j)).id = some r
    rw [h1]
    exact hf

theorem find_success_shape {g : ImageGraph} {fuel i r : ℕ} {g2 : ImageGraph}
    (hid : id_inv g.nodes)
    (h : find_component_at g fuel i = some (r, g2)) :
    i < g.nodes.length ∧ r < g.nodes.length ∧ labelAt g.nodes r = r ∧
      (∃ k, (labelAt g.nodes)^[k] i = r) ∧
      ((r = i ∧ g2 = g) ∨
        (labelAt g.nodes i ≠ i ∧ r ≠ i ∧
          g2 = { g with nodes := g.nodes.set i { nodeAt g.nodes i with label := r } })) := by
  rw [find_component_at] at h
  cases hni : g.nodes[i]? with
  | none => rw [hni] at h; simp at h
  | some node =>
    simp only [hni] at h
    have hi : i < g.nodes.length := by
      rcases List.getElem?_eq_some_iff.mp hni with ⟨hh, _⟩
      exact hh
    have hnode : node = nodeAt g.nodes i := (nodeAt_of_getElem hni).symm
    have hnid : node.id = i := by rw [hnode]; exact hid i hi
    have hnlabel : node.label = labelAt g.nodes i := by rw [hnode]; rfl
    by_cases hroot : node.label = node.id
    · rw [if_pos hroot] at h
      obtain ⟨rfl, rfl⟩ : i = r ∧ g = g2 := by simpa using h
      have hri : labelAt g.nodes i = i := by rw [← hnlabel, hroot, hnid]
      exact ⟨hi, hi, hri, ⟨0, rfl⟩, Or.inl ⟨rfl, rfl⟩⟩
    · rw [if_neg hroot] at h
      cases hlf : loop_find g.nodes fuel node.label node.id with
      | none => rw [hlf] at h; simp at h
      | some l =>
        rw [hlf] at h
        have h6 : (match g.nodes[l]? with
            | none => none
            | some s =>
              some (l, { g with nodes := g.nodes.set i { node with label := s.id } })) =
              some (r, g2) := h
        have hlf2 : loop_find g.nodes fuel (labelAt g.nodes i) i = some l := by
          rw [← hnlabel, ← hnid]; exact hlf
        obtain ⟨hr1, hr2, k, hk⟩ :=
          loop_find_sound hid fuel (labelAt g.nodes i) i l hlf2 hi rfl
        cases hsl : g.nodes[l]? with
        | none => rw [hsl] at h6; simp at h6
        | some s =>
          rw [hsl] at h6
          have h7 : some (l,
              ({ g with nodes := g.nodes.set i { node with label := s.id } } : ImageGraph)) =
              some (r, g2) := h6
          have hs : s = nodeAt g.nodes l := (nodeAt_of_getElem hsl).symm
          have hsid : s.id = l := by rw [hs]; exact hid l hr2
          obtain ⟨rfl, hg2⟩ : l = r ∧
              ({ g with nodes := g.nodes.set i { node with label := s.id } } : ImageGraph) =
                g2 := by simpa using h7
          have hine : labelAt g.nodes i ≠ i := by rw [← hnlabel]; rw [hnid] at hroot; exact hroot
          have hrne : l ≠ i := fun hc => hine (by rw [← hc]; exact hr1)
          refine ⟨hi, hr2, hr1, ⟨k + 1, hk⟩, Or.inr ⟨hine, hrne, ?_⟩⟩
          rw [← hg2, hsid, hnode]

/-- C3: on a graph satisfying the construction invariants, resolving the
component of a valid index returns the root reached by following label
pointers from that index; its only state change is overwriting the queried
node's own label with that root id; and, when the index is already a root,
it returns the index itself with no mutation at all. -/
theorem claim_c3 (g : ImageGraph) (i : ℕ) (hi : i < g.nodes.length)
    (hid : id_inv g.nodes) (hcl : closed_labels g.nodes)
    (hrr : ReachesRoot (labelAt g.nodes) i) :
    ∃ fuel r g2, find_component_at g fuel i = some (r, g2) ∧
      labelAt g.nodes r = r ∧ (∃ k, (labelAt g.nodes)^[k] i = r) ∧
      g2.k = g.k ∧ g2.edges = g.edges ∧
      (labelAt g.nodes i ≠ i ∨ (r = i ∧ g2 = g)) ∧
      (labelAt g.nodes i = i ∨
        g2.nodes = g.nodes.set i { nodeAt g.nodes i with label := r }) := by
  have hni : g.nodes[i]? = some (nodeAt g.nodes i) := getElem?_nodeAt hi
  have hnid : (nodeAt g.nodes i).id = i := hid i hi
  by_cases hroot : labelAt g.nodes i = i
  · refine ⟨0, i, g, ?_, hroot, ⟨0, rfl⟩, rfl, rfl, Or.inr ⟨rfl, rfl⟩, Or.inl hroot⟩
    simp only [find_component_at, hni]
    rw [if_pos (show (nodeAt g.nodes i).label = (nodeAt g.nodes i).id by
      rw [hnid]; exact hroot)]
  · obtain ⟨fuel, l, hlf⟩ := loop_find_exists hid hcl i hrr hi
    obtain ⟨hr1, hr2, k, hk⟩ := loop_find_sound hid fuel (labelAt g.nodes i) i l hlf hi rfl
    have hsl : g.nodes[l]? = some (nodeAt g.nodes l) := getElem?_nodeAt hr2
    have hsid : (nodeAt g.nodes l).id = l := hid l hr2
    refine ⟨fuel, l, { g with nodes := g.nodes.set i { nodeAt g.nodes i with label := l } },
      ?_, hr1, ⟨k + 1, hk⟩, rfl, rfl, Or.inl hroot, Or.inr rfl⟩
    simp only [find_component_at, hni]
    rw [if_neg (show ¬ (nodeAt g.nodes i).label = (nodeAt g.nodes i).id by
      rw [hnid]; exact hroot)]
    have hlf2 : loop_find g.nodes fuel (nodeAt g.nodes i).label (nodeAt g.nodes i).id =
        some l := by rw [hnid]; exact hlf
    simp only [hlf2, hsl, hsid]

/-- C9: `find_component_at` is idempotent: if a resolution succeeds,
running it again on the same index from the state the first call produced
returns the same root and leaves the state exactly as the first call left
it. -/
theorem claim_c9 (g : ImageGraph) (fuel i r : ℕ) (g2 : ImageGraph)
    (hid : id_inv g.nodes)
    (h : find_component_at g fuel i = some (r, g2)) :
    find_component_at g2 fuel i = some (r, g2) := by
  rw [find_component_at] at h
  cases hni : g.nodes[i]? with
  | none => rw [hni] at h; simp at h
  | some node =>
    simp only [hni] at h
    have hi : i < g.nodes.length := by
      rcases List.getElem?_eq_some_iff.mp hni with ⟨hh, _⟩
      exact hh
    have hnode : node = nodeAt g.nodes i := (nodeAt_of_getElem hni).symm
    have hnid : node.id = i := by rw [hnode]; exact hid i hi
    have hnlabel : node.label = labelAt g.nodes i := by rw [hnode]; rfl
    by_cases hroot : node.label = node.id
    · rw [if_pos hroot] at h
      obtain ⟨rfl, rfl⟩ : i = r ∧ g = g2 := by simpa using h
      simp only [find_component_at, hni]
      rw [if_pos hroot]
    · rw [if_neg hroot] at h
      cases hlf : loop_find g.nodes fuel node.label node.id with
      | none => rw [hlf] at h; simp at h
      | some l =>
        rw [hlf] at h
        have h6 : (match g.nodes[l]? with
            | none => none
            | some s =>
              some (l, { g with nodes := g.nodes.set i { node with label := s.id } })) =
              some (r, g2) := h
        have hlf2 : loop_find g.nodes fuel (labelAt g.nodes i) i = some l := by
          rw [← hnlabel, ← hnid]; exact hlf
        have hi2 : labelAt g.nodes i ≠ i := by
          rw [← hnlabel]; rw [hnid] at hroot; exact hroot
        obtain ⟨hr1, hr2, k, hk⟩ :=
          loop_find_sound hid fuel (labelAt g.nodes i) i l hlf2 hi rfl
        have hfuel2 : 2 ≤ fuel := loop_find_two_le hlf hroot
        cases hsl : g.nodes[l]? with
        | none => rw [hsl] at h6; simp at h6
        | some s =>
          rw [hsl] at h6
          have h7 : some (l,
              ({ g with nodes := g.nodes.set i { node with label := s.id } } : ImageGraph)) =
              some (r, g2) := h6
          have hs : s = nodeAt g.nodes l := (nodeAt_of_getElem hsl).symm
          have hsid : s.id = l := by rw [hs]; exact hid l hr2
          have hlni : l ≠ i := fun hc => hi2 (by rw [← hc]; exact hr1)
          obtain ⟨rfl, hg2⟩ : l = r ∧
              ({ g with nodes := g.nodes.set i { node with label := s.id } } : ImageGraph) =
                g2 := by simpa using h7
          -- the second call
          have hni2 : g2.nodes[i]? = some { node with label := s.id } := by
            rw [← hg2]
            exact List.getElem?_set_self (by simpa using hi)
          obtain ⟨f, rfl⟩ : ∃ f, fuel = f + 2 := ⟨fuel - 2, by omega⟩
          have hsl2 : g2.nodes[l]? = some s := by
            rw [← hg2]
            rw [List.getElem?_set_ne (fun hc => hlni hc.symm)]
            exact hsl
          have hloop2 : loop_find g2.nodes (f + 2) s.id node.id = some l := by
            rw [loop_find, if_neg (show ¬ s.id = node.id by rw [hsid, hnid]; exact hlni)]
            rw [hsid, hsl2]
            have hslabel : s.label = l := by rw [hs]; exact hr1
            show loop_find g2.nodes (f + 1) s.label s.id = some l
            rw [loop_find, if_pos (by rw [hslabel, hsid]), hslabel]
          simp only [find_component_at, hni2]
          rw [if_neg (show ¬ ({ node with label := s.id } : ImageNode).label =
            ({ node with label := s.id } : ImageNode).id by simpa [hsid, hnid] using hlni)]
          have hloop3 : loop_find g2.nodes (f + 2)
              ({ node with label := s.id } : ImageNode).label
              ({ node with label := s.id } : ImageNode).id = some l := hloop2
          rw [hloop3]
          show (match g2.nodes[l]? with
              | none => none
              | some s2 =>
                some (l, { g2 with nodes := g2.nodes.set i { label := s2.id, n := node.n, id := node.id, max_w := node.max_w } })) =
            some (l, g2)
          rw [hsl2]
          show some (l, ({ g2 with nodes := g2.nodes.set i { label := s.id, n := node.n, id := node.id, max_w := node.max_w } } : ImageGraph)) =
            some (l, g2)
          rw [← hg2]
          simp [List.set_set]

theorem reaches_update {L L2 : ℕ → ℕ} {t : ℕ}
    (hagree : ∀ j, j ≠ t → L2 j = L j) (h2 : ReachesRoot L2 (L2 t)) :
    ∀ i, ReachesRoot L i → ReachesRoot L2 i := by
  intro i hi
  induction hi with
  | root j hj =>
    by_cases hjt : j = t
    · subst hjt
      by_cases hr : L2 j = j
      · exact ReachesRoot.root j hr
      · exact ReachesRoot.step j hr h2
    · exact ReachesRoot.root j (by rw [hagree j hjt, hj])
  | step j hj hrec ih =>
    by_cases hjt : j = t
    · subst hjt
      by_cases hr : L2 j = j
      · exact ReachesRoot.root j hr
      · exact ReachesRoot.step j hr h2
    · by_cases hr : L2 j = j
      · exact ReachesRoot.root j hr
      · refine ReachesRoot.step j hr ?_
        rw [hagree j hjt]
        exact ih

theorem reaches_no_cycle {L : ℕ → ℕ} {i : ℕ} (h : ReachesRoot L i) :
    ∀ k, L^[k + 1] i = i → L i = i := by
  induction h with
  | root j hj => exact fun k _ => hj
  | step j hj hrec ih =>
    intro k hcyc
    exfalso
    apply hj
    have h1 : L^[k + 1] (L j) = L j := by
      have h2 : L^[k + 1] (L j) = L (L^[k + 1] j) :=
        (Function.iterate_succ_apply L (k + 1) j).symm.trans
          (Function.iterate_succ_apply' L (k + 1) j)
      rw [h2, hcyc]
    have h3 : L (L j) = L j := ih k h1
    calc L j = L^[k] (L j) := (Function.iterate_fixed h3 k).symm
      _ = L^[k + 1] j := (Function.iterate_succ_apply L k j).symm
      _ = j := hcyc

theorem labelAt_set {ns : List ImageNode} {t : ℕ} {nd : ImageNode} {j : ℕ}
    (hj : j ≠ t) : labelAt (ns.set t nd) j = labelAt ns j := by
  unfold labelAt nodeAt
  rw [List.getD_eq_getElem?_getD, List.getD_eq_getElem?_getD,
    List.getElem?_set_ne (fun hc => hj hc.symm)]

theorem nodeAt_set_self {ns : List ImageNode} {t : ℕ} {nd : ImageNode}
    (ht : t < ns.length) : nodeAt (ns.set t nd) t = nd := by
  unfold nodeAt
  rw [List.getD_eq_getElem?_getD, List.getElem?_set_self ht]
  rfl

theorem nodeAt_set_ne {ns : List ImageNode} {t : ℕ} {nd : ImageNode} {j : ℕ}
    (hj : j ≠ t) : nodeAt (ns.set t nd) j = nodeAt ns j := by
  unfold nodeAt
  rw [List.getD_eq_getElem?_getD, List.getD_eq_getElem?_getD,
    List.getElem?_set_ne (fun hc => hj hc.symm)]

theorem good_initialized (count : ℕ) : GoodState (initialized_graph count) := by
  have hnode : ∀ j, j < count →
      nodeAt (initialized_graph count).nodes j =
        { label := j, n := 1, id := j, max_w := 0 } := by
    intro j hj
    unfold initialized_graph nodeAt
    rw [List.getD_eq_getElem?_getD, List.getElem?_map, List.getElem?_range hj]
    rfl
  have hlen : (initialized_graph count).nodes.length = count := by
    simp [initialized_graph]
  refine ⟨?_, ?_, ?_⟩
  · intro j hj
    rw [hlen] at hj
    rw [hnode j hj]
  · intro j hj
    rw [hlen] at hj
    unfold labelAt
    rw [hnode j hj, hlen]
    exact hj
  · intro j hj
    rw [hlen] at hj
    refine ReachesRoot.root j ?_
    unfold labelAt
    rw [hnode j hj]

theorem good_merge {g : ImageGraph} {a b : ℕ} {e : ImageEdge}
    (hg : GoodState g) (ha : a < g.nodes.length) (hb : b < g.nodes.length)
    (hra : (nodeAt g.nodes a).label = (nodeAt g.nodes a).id)
    (hrb : (nodeAt g.nodes b).label = (nodeAt g.nodes b).id)
    (hab : (nodeAt g.nodes a).id ≠ (nodeAt g.nodes b).id) :
    GoodState (g.merge a b e) := by
  obtain ⟨hid, hcl, hrr⟩ := hg
  have haid : (nodeAt g.nodes a).id = a := hid a ha
  have hbid : (nodeAt g.nodes b).id = b := hid b hb
  have hane : a ≠ b := fun hc => hab (by rw [hc])
  have hla : labelAt g.nodes a = a := by unfold labelAt; rw [hra, haid]
  have hlen : (g.merge a b e).nodes.length = g.nodes.length := by
    unfold ImageGraph.merge
    simp
  have hnodes : (g.merge a b e).nodes =
      (g.nodes.set a { nodeAt g.nodes a with
          n := (nodeAt g.nodes a).n + (nodeAt g.nodes b).n,
          max_w := max (max (nodeAt g.nodes a).max_w (nodeAt g.nodes b).max_w) e.w }).set b
        { nodeAt g.nodes b with label := (nodeAt g.nodes a).id } := rfl
  have hlab_b : labelAt (g.merge a b e).nodes b = a := by
    unfold labelAt
    rw [hnodes, nodeAt_set_self (by simpa using hb), haid]
  have hlab_other : ∀ j, j ≠ b → labelAt (g.merge a b e).nodes j = labelAt g.nodes j := by
    intro j hj
    rw [hnodes]
    unfold labelAt
    rw [nodeAt_set_ne hj]
    by_cases hja : j = a
    · subst hja
      rw [nodeAt_set_self ha]
    · rw [nodeAt_set_ne hja]
  have hid2 : ∀ j, j < g.nodes.length →
      (nodeAt (g.merge a b e).nodes j).id = (nodeAt g.nodes j).id := by
    intro j hj
    rw [hnodes]
    by_cases hjb : j = b
    · subst hjb
      rw [nodeAt_set_self (by simpa using hb)]
    · rw [nodeAt_set_ne hjb]
      by_cases hja : j = a
      · subst hja
        rw [nodeAt_set_self ha]
      · rw [nodeAt_set_ne hja]
  refine ⟨?_, ?_, ?_⟩
  · intro j hj
    rw [hlen] at hj
    rw [hid2 j hj]
    exact hid j hj
  · intro j hj
    rw [hlen] at hj
    rw [hlen]
    by_cases hjb : j = b
    · subst hjb
      rw [hlab_b]
      exact ha
    · rw [hlab_other j hjb]
      exact hcl j hj
  · intro j hj
    rw [hlen] at hj
    refine reaches_update (t := b) (fun j2 hj2 => hlab_other j2 hj2) ?_ j (hrr j hj)
    rw [hlab_b]
    by_cases hba : a = b
    · exact absurd hba hane
    · refine ReachesRoot.root a ?_
      rw [hlab_other a hane, hla]

theorem good_find {g : ImageGraph} {fuel i r : ℕ} {g2 : ImageGraph}
    (hg : GoodState g) (h : find_component_at g fuel i = some (r, g2)) :
    GoodState g2 := by
  obtain ⟨hid, hcl, hrr⟩ := hg
  obtain ⟨hi, hr2, hroot, ⟨k, hk⟩, hcase⟩ := find_success_shape hid h
  rcases hcase with ⟨_, rfl⟩ | ⟨hine, hrne, rfl⟩
  · exact ⟨hid, hcl, hrr⟩
  · have hlen : ({ g with nodes := g.nodes.set i { nodeAt g.nodes i with label := r } } :
        ImageGraph).nodes.length = g.nodes.length := by simp
    have hlab_i : labelAt (g.nodes.set i { nodeAt g.nodes i with label := r }) i = r := by
      unfold labelAt
      rw [nodeAt_set_self hi]
    have hlab_other : ∀ j, j ≠ i →
        labelAt (g.nodes.set i { nodeAt g.nodes i with label := r }) j =
          labelAt g.nodes j := fun j hj => labelAt_set hj
    refine ⟨?_, ?_, ?_⟩
    · intro j hj
      rw [hlen] at hj
      by_cases hji : j = i
      · subst hji
        show (nodeAt (g.nodes.set j { nodeAt g.nodes j with label := r }) j).id = j
        rw [nodeAt_set_self hi]
        exact hid j hj
      · show (nodeAt (g.nodes.set i { nodeAt g.nodes i with label := r }) j).id = j
        rw [nodeAt_set_ne hji]
        exact hid j hj
    · intro j hj
      rw [hlen] at hj
      rw [hlen]
      by_cases hji : j = i
      · subst hji
        show labelAt (g.nodes.set j { nodeAt g.nodes j with label := r }) j < g.nodes.length
        rw [hlab_i]
        exact hr2
      · show labelAt (g.nodes.set i { nodeAt g.nodes i with label := r }) j < g.nodes.length
        rw [hlab_other j hji]
        exact hcl j hj
    · intro j hj
      rw [hlen] at hj
      refine reaches_update (t := i) hlab_other ?_ j (hrr j hj)
      rw [hlab_i]
      by_cases hri : r = i
      · subst hri
        exact ReachesRoot.root r (by rw [hlab_i])
      · refine ReachesRoot.root r ?_
        rw [hlab_other r hri]
        exact hroot

theorem reachable_good {g : ImageGraph} (hg : Reachable g) : GoodState g := by
  induction hg with
  | init count => exact good_initialized count
  | merge g a b e hg2 ha hb hra hrb hab ih => exact good_merge ih ha hb hra hrb hab
  | find g fuel i r g2 hg2 hf ih => exact good_find ih hf

/-- C4: in every graph state reachable from construction by merges (under
their documented root preconditions) and component resolutions, following
label pointers from any valid node reaches a root, and no non-root node
lies on a label cycle. -/
theorem claim_c4 (g : ImageGraph) (hg : Reachable g) (i k : ℕ)
    (hi : i < g.nodes.length) :
    ReachesRoot (labelAt g.nodes) i ∧
      ¬ ((labelAt g.nodes)^[k + 1] i = i ∧ labelAt g.nodes i ≠ i) := by
  have hrr := (reachable_good hg).2.2 i hi
  exact ⟨hrr, fun hc => hc.2 (reaches_no_cycle hrr k hc.1)⟩

/-- C3 witness: resolving node 2 of `exampleGraph` (label chain
`2 -> 1 -> 0`). -/
theorem claim_c3_witness :
    ∃ fuel r g2, find_component_at exampleGraph fuel 2 = some (r, g2) ∧
      labelAt exampleGraph.nodes r = r ∧
      (∃ k, (labelAt exampleGraph.nodes)^[k] 2 = r) ∧
      g2.k = exampleGraph.k ∧ g2.edges = exampleGraph.edges ∧
      (labelAt exampleGraph.nodes 2 ≠ 2 ∨ (r = 2 ∧ g2 = exampleGraph)) ∧
      (labelAt exampleGraph.nodes 2 = 2 ∨
        g2.nodes = exampleGraph.nodes.set 2 { nodeAt exampleGraph.nodes 2 with label := r }) :=
  claim_c3 exampleGraph 2 (by decide) (by decide) (by decide)
    (ReachesRoot.step 2 (by decide)
      (show ReachesRoot (labelAt exampleGraph.nodes) (labelAt exampleGraph.nodes 2) from by
        rw [show labelAt exampleGraph.nodes 2 = 1 from by decide]
        exact ReachesRoot.step 1 (by decide)
          (show ReachesRoot (labelAt exampleGraph.nodes) (labelAt exampleGraph.nodes 1) from by
            rw [show labelAt exampleGraph.nodes 1 = 0 from by decide]
            exact ReachesRoot.root 0 (by decide))))

/-- C4 witness: the reachable state `exampleGraph` at node 2 with cycle
length 1. -/
theorem claim_c4_witness :
    ReachesRoot (labelAt exampleGraph.nodes) 2 ∧
      ¬ ((labelAt exampleGraph.nodes)^[0 + 1] 2 = 2 ∧
        labelAt exampleGraph.nodes 2 ≠ 2) :=
  claim_c4 exampleGraph
    (Reachable.merge ((initialized_graph 3).merge 1 2 { n := 1, m := 2, w := 0 }) 0 1
      { n := 0, m := 1, w := 0 }
      (Reachable.merge (initialized_graph 3) 1 2 { n := 1, m := 2, w := 0 }
        (Reachable.init 3) (by decide) (by decide) (by decide) (by decide) (by decide))
      (by decide) (by decide) (by decide) (by decide) (by decide))
    2 0 (by decide)

/-- C9 witness: resolving node 2 of `exampleGraph` twice; the second call
returns the same root and the same state. -/
theorem claim_c9_witness :
    find_component_at exampleGraphFound 4 2 = some (0, exampleGraphFound) :=
  claim_c9 exampleGraph 4 2 0 exampleGraphFound (by decide) (by decide)
